import Mathlib

/-!
Verification of the `fastdivide` crate: precomputed strategies for fast
unsigned 64-bit division (a port of part of libdivide).

The Rust source (src/lib.rs) is shallowly embedded over `Nat`.  Machine
`u64`/`u128` values are represented as natural numbers; every place where the
source truncates to 64 bits (a cast `as u64`, or `u64` wrapping arithmetic)
carries an explicit `% 2 ^ 64`.  The `assert!` statements of the source are
modelled as separate boolean predicates which are proved to hold on the
reachable inputs, and the construction entry point `divide_by`, whose
`assert!(divisor > 0)` is its only failure point, is modelled as returning
`Except`.
-/

/-- The error raised when a `Divider` is constructed from a zero divisor
(the `assert!(divisor > 0)` in `divide_by`). -/
inductive DivideError where
  | InvalidDivisor
deriving DecidableEq, Repr

/-- The three division strategies of the crate (enum `DividerU64` in
src/lib.rs).  Field values are `u64` / `u8` in the source, here `Nat`. -/
inductive DividerU64 where
  | Fast (magic : Nat) (shift : Nat)
  | BitShift (shift : Nat)
  | General (magic_low : Nat) (shift : Nat)
deriving DecidableEq, Repr

/-- `libdivide_mullhi_u64(x, y)`: the high 64 bits of the 128-bit product,
`((x as u128) * (y as u128)) >> 64` cast back to `u64`. -/
def libdivide_mullhi_u64 (x y : Nat) : Nat :=
  ((x * y) >>> 64) % 2 ^ 64

/-- `is_power_of_2(n)`: `n & (n - 1) == 0`. -/
def is_power_of_2 (n : Nat) : Bool :=
  n &&& (n - 1) == 0

/-- Bit length of `n` (position of the highest set bit, plus one), computed
with explicit fuel so that it reduces in the kernel; `bitlen 64 n` is the bit
length of any `u64` value. -/
def bitlen : Nat → Nat → Nat
  | 0, _ => 0
  | fuel + 1, n => if n = 0 then 0 else bitlen fuel (n / 2) + 1

/-- `u64::leading_zeros`: 64 minus the bit length. -/
def leading_zeros (n : Nat) : Nat :=
  64 - bitlen 64 n

/-- `DividerU64::power_of_2_division`. -/
def DividerU64.power_of_2_division (divisor : Nat) : Option DividerU64 :=
  let floor_log_2_d := 63 - leading_zeros divisor
  if is_power_of_2 divisor then
    some (DividerU64.BitShift floor_log_2_d)
  else
    none

/-- `DividerU64::fast_path`.  The source's
`assert!(reminder > 0 && reminder < divisor)` is modelled separately by
`DividerU64.fast_path_assert` and proved to hold on every reachable input. -/
def DividerU64.fast_path (divisor : Nat) : Option DividerU64 :=
  if is_power_of_2 divisor then
    none
  else
    let floor_log_2_d := 63 - leading_zeros divisor
    let u := 1 <<< (floor_log_2_d + 64)
    let proposed_magic_number := u / divisor
    let reminder := (u - proposed_magic_number * divisor) % 2 ^ 64
    let e := divisor - reminder
    if 1 <<< floor_log_2_d ≤ e then
      none
    else
      some (DividerU64.Fast ((proposed_magic_number % 2 ^ 64 + 1) % 2 ^ 64) floor_log_2_d)

/-- The condition of the `assert!` inside `DividerU64::fast_path`:
`reminder > 0 && reminder < divisor`. -/
def DividerU64.fast_path_assert (divisor : Nat) : Bool :=
  let floor_log_2_d := 63 - leading_zeros divisor
  let u := 1 <<< (floor_log_2_d + 64)
  let proposed_magic_number := u / divisor
  let reminder := (u - proposed_magic_number * divisor) % 2 ^ 64
  decide (0 < reminder) && decide (reminder < divisor)

/-- `DividerU64::general_path`.  All intermediate arithmetic is `u128` in the
source; it is proved below (`general_path_no_overflow`) to stay below
`2 ^ 128`, so the plain `Nat` operations here coincide with the wrapping
`u128` ones.  The final `m as u64` cast is the explicit `% 2 ^ 64`.  The
source's `assert!(!is_power_of_2(divisor))` holds at the single call site,
where both other paths have returned `None`. -/
def DividerU64.general_path (divisor : Nat) : DividerU64 :=
  let p := 64 - leading_zeros divisor
  let e := 1 <<< (63 + p)
  let m := 2 + (e + (e - divisor)) / divisor
  DividerU64.General (m % 2 ^ 64) (p - 1)

/-- `DividerU64::divide_by`.  The `assert!(divisor > 0)` is the construction
failure, modelled as `Except.error DivideError.InvalidDivisor`. -/
def DividerU64.divide_by (divisor : Nat) : Except DivideError DividerU64 :=
  if 0 < divisor then
    Except.ok
      (((DividerU64.power_of_2_division divisor).orElse
          (fun _ => DividerU64.fast_path divisor)).getD
        (DividerU64.general_path divisor))
  else
    Except.error DivideError.InvalidDivisor

/-- `DividerU64::divide`, with Rust release (wraparound) semantics: the `u64`
subtraction `n - q` and the `wrapping_add` are taken modulo `2 ^ 64`. -/
def DividerU64.divide (d : DividerU64) (n : Nat) : Nat :=
  match d with
  | DividerU64.BitShift s => n >>> s
  | DividerU64.Fast magic shift => libdivide_mullhi_u64 magic n >>> shift
  | DividerU64.General magic_low shift =>
      let q := libdivide_mullhi_u64 magic_low n
      let t := ((((2 ^ 64 + n - q) % 2 ^ 64) >>> 1) + q) % 2 ^ 64
      t >>> shift

/-- A checked variant of `DividerU64.divide` which returns `none` exactly
where a Rust debug build would panic: on overflow of the `u64` subtraction
`n - q`, and on a shift amount of 64 or more.  (`wrapping_add` is explicitly
wrapping in the source and is not a panic point.) -/
def DividerU64.divide_checked (d : DividerU64) (n : Nat) : Option Nat :=
  match d with
  | DividerU64.BitShift s =>
      if s < 64 then some (n >>> s) else none
  | DividerU64.Fast magic shift =>
      if shift < 64 then some (libdivide_mullhi_u64 magic n >>> shift) else none
  | DividerU64.General magic_low shift =>
      let q := libdivide_mullhi_u64 magic_low n
      if q ≤ n then
        if shift < 64 then
          some (((((n - q) >>> 1) + q) % 2 ^ 64) >>> shift)
        else none
      else none

/-- The `shift` field of a strategy, uniform over the three variants. -/
def DividerU64.shift_of (d : DividerU64) : Nat :=
  match d with
  | DividerU64.Fast _ shift => shift
  | DividerU64.BitShift shift => shift
  | DividerU64.General _ shift => shift

/-! ### Bit-length and logarithm facts -/

theorem bitlen_zero (fuel : Nat) : bitlen fuel 0 = 0 := by
  cases fuel <;> simp [bitlen]

theorem bitlen_eq_log2 (fuel : Nat) : ∀ n : Nat, 0 < n → n < 2 ^ fuel →
    bitlen fuel n = Nat.log2 n + 1 := by
  induction fuel with
  | zero => intro n h0 h1; omega
  | succ fuel ih =>
      intro n h0 h1
      have hn : n ≠ 0 := Nat.pos_iff_ne_zero.mp h0
      rw [bitlen, if_neg hn]
      by_cases h2 : 2 ≤ n
      · have hpos : 0 < n / 2 := Nat.div_pos h2 (by norm_num)
        have hlt : n / 2 < 2 ^ fuel := by
          rw [Nat.div_lt_iff_lt_mul (by norm_num)]
          calc n < 2 ^ (fuel + 1) := h1
            _ = 2 ^ fuel * 2 := by rw [Nat.pow_succ]
        rw [ih (n / 2) hpos hlt]
        conv_rhs => rw [Nat.log2]
        rw [if_pos h2]
      · have hn1 : n = 1 := by omega
        subst hn1
        simp [bitlen_zero, Nat.log2]

theorem log2_le_63 {d : Nat} (h0 : 0 < d) (h64 : d < 2 ^ 64) : Nat.log2 d ≤ 63 := by
  have := (Nat.log2_lt (Nat.pos_iff_ne_zero.mp h0)).mpr h64
  omega

theorem leading_zeros_eq {d : Nat} (h0 : 0 < d) (h64 : d < 2 ^ 64) :
    leading_zeros d = 63 - Nat.log2 d := by
  unfold leading_zeros
  rw [bitlen_eq_log2 64 d h0 h64]
  have := log2_le_63 h0 h64
  omega

theorem floor_log2_eq {d : Nat} (h0 : 0 < d) (h64 : d < 2 ^ 64) :
    63 - leading_zeros d = Nat.log2 d := by
  rw [leading_zeros_eq h0 h64]
  have := log2_le_63 h0 h64
  omega

theorem p_eq {d : Nat} (h0 : 0 < d) (h64 : d < 2 ^ 64) :
    64 - leading_zeros d = Nat.log2 d + 1 := by
  rw [leading_zeros_eq h0 h64]
  have := log2_le_63 h0 h64
  omega

/-! ### The bit test `n & (n - 1) == 0` detects exactly the powers of two -/

theorem is_power_of_2_two_pow (k : Nat) : is_power_of_2 (2 ^ k) = true := by
  unfold is_power_of_2
  rw [Nat.and_pow_two_sub_one_eq_mod]
  simp

theorem eq_two_pow_of_is_power_of_2 {d : Nat} (h0 : 0 < d)
    (h : is_power_of_2 d = true) : d = 2 ^ Nat.log2 d := by
  by_contra hne
  have hand : d &&& (d - 1) = 0 := by
    simpa [is_power_of_2] using h
  have hlo : 2 ^ Nat.log2 d ≤ d := Nat.log2_self_le (Nat.pos_iff_ne_zero.mp h0)
  have hhi : d < 2 ^ (Nat.log2 d + 1) := Nat.lt_log2_self
  have hlo1 : 2 ^ Nat.log2 d + 1 ≤ d := by
    rcases Nat.lt_or_ge (2 ^ Nat.log2 d) d with h' | h'
    · omega
    · exact absurd (Nat.le_antisymm h' hlo) hne
  have hj : 2 ^ (Nat.log2 d + 1) = 2 ^ Nat.log2 d * 2 := by rw [Nat.pow_succ]
  have htd : d.testBit (Nat.log2 d) = true := by
    rw [Nat.testBit_to_div_mod]
    have : d / 2 ^ Nat.log2 d = 1 :=
      Nat.div_eq_of_lt_le (by omega) (by omega)
    simp [this]
  have htd1 : (d - 1).testBit (Nat.log2 d) = true := by
    rw [Nat.testBit_to_div_mod]
    have : (d - 1) / 2 ^ Nat.log2 d = 1 :=
      Nat.div_eq_of_lt_le (by omega) (by omega)
    simp [this]
  have : (d &&& (d - 1)).testBit (Nat.log2 d) = true := by
    rw [Nat.testBit_and, htd, htd1]
    rfl
  rw [hand] at this
  simp at this

theorem is_power_of_2_false_of_ne {d : Nat} (h0 : 0 < d)
    (h : ∀ k, d ≠ 2 ^ k) : is_power_of_2 d = false := by
  by_contra hc
  have : is_power_of_2 d = true := by
    cases hval : is_power_of_2 d
    · exact absurd hval hc
    · rfl
  exact h (Nat.log2 d) (eq_two_pow_of_is_power_of_2 h0 this)

theorem ne_two_pow_of_is_power_of_2_false {d : Nat}
    (h : is_power_of_2 d = false) : ∀ k, d ≠ 2 ^ k := by
  intro k hk
  rw [hk, is_power_of_2_two_pow] at h
  cases h

theorem not_dvd_two_pow {d : Nat} (h0 : 0 < d)
    (h : is_power_of_2 d = false) (t : Nat) : ¬ d ∣ 2 ^ t := by
  intro hdvd
  rcases (Nat.dvd_prime_pow Nat.prime_two).mp hdvd with ⟨i, _, hi⟩
  exact ne_two_pow_of_is_power_of_2_false h i hi

theorem two_pow_log2_lt_of_not_pow2 {d : Nat} (h0 : 0 < d)
    (h : is_power_of_2 d = false) : 2 ^ Nat.log2 d < d := by
  have hlo : 2 ^ Nat.log2 d ≤ d := Nat.log2_self_le (Nat.pos_iff_ne_zero.mp h0)
  rcases Nat.lt_or_ge (2 ^ Nat.log2 d) d with h' | h'
  · exact h'
  · exact absurd (Nat.le_antisymm h' hlo)
      (ne_two_pow_of_is_power_of_2_false h (Nat.log2 d))

/-! ### The round-up reciprocal lemma

If `M * d = 2 ^ k + e` (the magic number `M` overshoots the exact reciprocal
`2 ^ k / d` by an error `e`) and the dividend keeps `n * e` below `2 ^ k`,
then multiplying by `M` and shifting by `k` computes the exact quotient. -/

theorem round_up_div {d M k e n : Nat} (hd : 0 < d)
    (hMd : M * d = 2 ^ k + e) (hne : n * e < 2 ^ k) :
    M * n / 2 ^ k = n / d := by
  have hexp : M * n * d = n * 2 ^ k + n * e := by
    calc M * n * d = M * d * n := by ring
      _ = (2 ^ k + e) * n := by rw [hMd]
      _ = n * 2 ^ k + n * e := by ring
  apply Nat.div_eq_of_lt_le
  · -- n / d * 2 ^ k ≤ M * n
    have h1 : n / d * 2 ^ k * d ≤ M * n * d := by
      calc n / d * 2 ^ k * d = n / d * d * 2 ^ k := by ring
        _ ≤ n * 2 ^ k := Nat.mul_le_mul_right _ (Nat.div_mul_le_self n d)
        _ ≤ n * 2 ^ k + n * e := Nat.le_add_right _ _
        _ = M * n * d := hexp.symm
    exact Nat.le_of_mul_le_mul_right h1 hd
  · -- M * n < (n / d + 1) * 2 ^ k
    have hnd : n < (n / d + 1) * d := by
      have h3 := Nat.div_add_mod n d
      have h4 := Nat.mod_lt n hd
      calc n = d * (n / d) + n % d := h3.symm
        _ < d * (n / d) + d := by omega
        _ = (n / d + 1) * d := by ring
    have h2 : M * n * d < (n / d + 1) * 2 ^ k * d := by
      calc M * n * d = n * 2 ^ k + n * e := hexp
        _ < n * 2 ^ k + 2 ^ k := by omega
        _ = (n + 1) * 2 ^ k := by ring
        _ ≤ (n / d + 1) * d * 2 ^ k := Nat.mul_le_mul_right _ hnd
        _ = (n / d + 1) * 2 ^ k * d := by ring
    exact Nat.lt_of_mul_lt_mul_right h2

/-! ### Characterization of `divide_by` on each of its three paths -/

/-- On a power of two, construction yields `BitShift (log2 d)`. -/
theorem divide_by_pow2 {d : Nat} (h0 : 0 < d) (h64 : d < 2 ^ 64)
    (hp : is_power_of_2 d = true) :
    DividerU64.divide_by d = Except.ok (DividerU64.BitShift (Nat.log2 d)) := by
  unfold DividerU64.divide_by DividerU64.power_of_2_division
  rw [if_pos h0, floor_log2_eq h0 h64, hp]
  rfl

theorem sub_div_mul_eq_mod {u d : Nat} : u - u / d * d = u % d := by
  have h1 : d * (u / d) + u % d = u := Nat.div_add_mod u d
  have h2 : u / d * d = d * (u / d) := Nat.mul_comm _ _
  omega

theorem pow2_64_eq : (2 : Nat) ^ 64 = 18446744073709551616 := by norm_num

/-- The 64-bit magic number of the fast path does not overflow a `u64`. -/
theorem fast_magic_lt {d : Nat} (h0 : 0 < d) (h64 : d < 2 ^ 64)
    (hnp : is_power_of_2 d = false) :
    2 ^ (Nat.log2 d + 64) / d + 1 < 2 ^ 64 := by
  have hl : 2 ^ Nat.log2 d < d := two_pow_log2_lt_of_not_pow2 h0 hnp
  have hA : 2 ^ Nat.log2 d ≤ 2 ^ 63 :=
    Nat.pow_le_pow_right (by norm_num) (log2_le_63 h0 h64)
  have hu : (2 : Nat) ^ (Nat.log2 d + 64) = 2 ^ Nat.log2 d * 2 ^ 64 :=
    Nat.pow_add 2 _ _
  have h63 : (2 : Nat) ^ 63 = 9223372036854775808 := by norm_num
  have hdiv : 2 ^ (Nat.log2 d + 64) / d < 2 ^ 64 - 1 := by
    rw [Nat.div_lt_iff_lt_mul h0, hu, pow2_64_eq]
    omega
  omega

/-- On a non-power-of-two satisfying the error bound `e < 2 ^ floor_log2 d`,
construction yields the fast strategy with magic `2 ^ (floor_log2 d + 64) / d + 1`. -/
theorem divide_by_fast {d : Nat} (h0 : 0 < d) (h64 : d < 2 ^ 64)
    (hnp : is_power_of_2 d = false)
    (hcond : d - 2 ^ (Nat.log2 d + 64) % d < 2 ^ Nat.log2 d) :
    DividerU64.divide_by d =
      Except.ok (DividerU64.Fast (2 ^ (Nat.log2 d + 64) / d + 1) (Nat.log2 d)) := by
  have hmod : 2 ^ (Nat.log2 d + 64) % d < d := Nat.mod_lt _ h0
  have hmagic := fast_magic_lt h0 h64 hnp
  unfold DividerU64.divide_by DividerU64.power_of_2_division DividerU64.fast_path
  rw [if_pos h0, hnp]
  simp only [Bool.false_eq_true, if_false, Option.orElse, Nat.shiftLeft_eq, one_mul,
    floor_log2_eq h0 h64, sub_div_mul_eq_mod]
  rw [Nat.mod_eq_of_lt (lt_trans hmod h64)]
  rw [if_neg (by omega)]
  have hm1 : 2 ^ (Nat.log2 d + 64) / d % 2 ^ 64 = 2 ^ (Nat.log2 d + 64) / d :=
    Nat.mod_eq_of_lt (by omega)
  rw [hm1, Nat.mod_eq_of_lt hmagic]
  rfl

/-- On a non-power-of-two failing the fast-path error bound, construction
yields the general strategy: shift `log2 d` and the low 64 bits of
`1 + 2 ^ (log2 d + 65) / d`. -/
theorem divide_by_general {d : Nat} (h0 : 0 < d) (h64 : d < 2 ^ 64)
    (hnp : is_power_of_2 d = false)
    (hcond : 2 ^ Nat.log2 d ≤ d - 2 ^ (Nat.log2 d + 64) % d) :
    DividerU64.divide_by d =
      Except.ok
        (DividerU64.General ((1 + 2 ^ (Nat.log2 d + 65) / d) % 2 ^ 64)
          (Nat.log2 d)) := by
  have hmod : 2 ^ (Nat.log2 d + 64) % d < d := Nat.mod_lt _ h0
  unfold DividerU64.divide_by DividerU64.power_of_2_division DividerU64.fast_path
    DividerU64.general_path
  rw [if_pos h0, hnp]
  simp only [Bool.false_eq_true, if_false, Option.orElse, Nat.shiftLeft_eq, one_mul,
    floor_log2_eq h0 h64, p_eq h0 h64, sub_div_mul_eq_mod]
  rw [Nat.mod_eq_of_lt (lt_trans hmod h64)]
  rw [if_pos (by omega)]
  have he1 : 63 + (Nat.log2 d + 1) = Nat.log2 d + 64 := by omega
  rw [he1]
  have hde : d ≤ 2 ^ (Nat.log2 d + 64) := by
    calc d ≤ 2 ^ 64 := le_of_lt h64
      _ ≤ 2 ^ (Nat.log2 d + 64) := Nat.pow_le_pow_right (by norm_num) (by omega)
  have hsum : 2 ^ (Nat.log2 d + 64) + (2 ^ (Nat.log2 d + 64) - d) =
      2 ^ (Nat.log2 d + 65) - d := by
    have : (2 : Nat) ^ (Nat.log2 d + 65) = 2 ^ (Nat.log2 d + 64) * 2 := by
      rw [← Nat.pow_succ]
    omega
  rw [hsum]
  have hsub : (2 ^ (Nat.log2 d + 65) - d) / d = 2 ^ (Nat.log2 d + 65) / d - 1 := by
    have h1 : d * 1 ≤ 2 ^ (Nat.log2 d + 65) := by
      have : (2 : Nat) ^ (Nat.log2 d + 64) ≤ 2 ^ (Nat.log2 d + 65) :=
        Nat.pow_le_pow_right (by norm_num) (by omega)
      omega
    calc (2 ^ (Nat.log2 d + 65) - d) / d
        = (2 ^ (Nat.log2 d + 65) - d * 1) / d := by rw [Nat.mul_one]
      _ = 2 ^ (Nat.log2 d + 65) / d - 1 := Nat.sub_mul_div _ _ _ h1
  rw [hsub]
  have hge1 : 1 ≤ 2 ^ (Nat.log2 d + 65) / d := by
    rw [Nat.le_div_iff_mul_le h0]
    have : (2 : Nat) ^ (Nat.log2 d + 64) ≤ 2 ^ (Nat.log2 d + 65) :=
      Nat.pow_le_pow_right (by norm_num) (by omega)
    omega
  have hfin : 2 + (2 ^ (Nat.log2 d + 65) / d - 1) = 1 + 2 ^ (Nat.log2 d + 65) / d := by
    omega
  rw [hfin]
  have hshift : Nat.log2 d + 1 - 1 = Nat.log2 d := by omega
  rw [hshift]
  rfl

/-! ### Evaluating `divide` on each strategy -/

theorem divide_bitshift (s n : Nat) :
    DividerU64.divide (DividerU64.BitShift s) n = n / 2 ^ s := by
  unfold DividerU64.divide
  exact Nat.shiftRight_eq_div_pow n s

/-- On the fast strategy, `divide` computes `magic * n / 2 ^ (shift + 64)`. -/
theorem divide_fast_eq {magic n : Nat} (s : Nat) (hm : magic < 2 ^ 64)
    (hn : n < 2 ^ 64) :
    DividerU64.divide (DividerU64.Fast magic s) n = magic * n / 2 ^ (s + 64) := by
  show (((magic * n) >>> 64) % 2 ^ 64) >>> s = magic * n / 2 ^ (s + 64)
  have hlt : magic * n / 2 ^ 64 < 2 ^ 64 := by
    rw [Nat.div_lt_iff_lt_mul (by norm_num)]
    calc magic * n ≤ magic * 2 ^ 64 := Nat.mul_le_mul_left _ (le_of_lt hn)
      _ < 2 ^ 64 * 2 ^ 64 := (Nat.mul_lt_mul_right (by norm_num)).mpr hm
  rw [Nat.shiftRight_eq_div_pow (magic * n) 64, Nat.mod_eq_of_lt hlt,
    Nat.shiftRight_eq_div_pow, Nat.div_div_eq_div_mul, ← Nat.pow_add]
  rw [Nat.add_comm 64 s]

/-- On the general strategy with conceptual 65-bit magic `M`, `divide`
computes `M * n / 2 ^ (65 + shift)`; the stored field is `M % 2 ^ 64`. -/
theorem divide_general_eq {M n : Nat} (s : Nat) (hM1 : 2 ^ 64 ≤ M)
    (hM2 : M < 2 ^ 65) (hn : n < 2 ^ 64) :
    DividerU64.divide (DividerU64.General (M % 2 ^ 64) s) n =
      M * n / 2 ^ (65 + s) := by
  have hml : M % 2 ^ 64 = M - 2 ^ 64 := by
    rw [Nat.mod_eq_sub_mod hM1]
    exact Nat.mod_eq_of_lt (by
      have : (2 : Nat) ^ 65 = 2 ^ 64 * 2 := by rw [← Nat.pow_succ]
      omega)
  rw [hml]
  set ml := M - 2 ^ 64 with hml_def
  have hml64 : ml < 2 ^ 64 := by
    have : (2 : Nat) ^ 65 = 2 ^ 64 * 2 := by rw [← Nat.pow_succ]
    omega
  show (((((2 ^ 64 + n - (((ml * n) >>> 64) % 2 ^ 64)) % 2 ^ 64) >>> 1) +
      (((ml * n) >>> 64) % 2 ^ 64)) % 2 ^ 64) >>> s = M * n / 2 ^ (65 + s)
  have hq_eq : ((ml * n) >>> 64) % 2 ^ 64 = ml * n / 2 ^ 64 := by
    rw [Nat.shiftRight_eq_div_pow]
    apply Nat.mod_eq_of_lt
    rw [Nat.div_lt_iff_lt_mul (by norm_num)]
    calc ml * n ≤ ml * 2 ^ 64 := Nat.mul_le_mul_left _ (le_of_lt hn)
      _ < 2 ^ 64 * 2 ^ 64 := (Nat.mul_lt_mul_right (by norm_num)).mpr hml64
  rw [hq_eq]
  set q := ml * n / 2 ^ 64 with hq_def
  have hq_le : q ≤ n := by
    have h1 : ml * n ≤ 2 ^ 64 * n := Nat.mul_le_mul_right _ (le_of_lt hml64)
    calc q = ml * n / 2 ^ 64 := hq_def
      _ ≤ 2 ^ 64 * n / 2 ^ 64 := Nat.div_le_div_right h1
      _ = n := Nat.mul_div_cancel_left _ (by norm_num)
  have hsub : (2 ^ 64 + n - q) % 2 ^ 64 = n - q := by
    have h1 : 2 ^ 64 + n - q = 2 ^ 64 + (n - q) := by omega
    rw [h1, Nat.add_mod_left]
    exact Nat.mod_eq_of_lt (by omega)
  rw [hsub]
  have hshr1 : (n - q) >>> 1 = (n - q) / 2 := by
    rw [Nat.shiftRight_eq_div_pow, Nat.pow_one]
  rw [hshr1]
  have hinner_le : (n - q) / 2 + q ≤ n := by
    have := Nat.div_le_self (n - q) 2
    omega
  rw [Nat.mod_eq_of_lt (by omega : (n - q) / 2 + q < 2 ^ 64)]
  have havg : (n - q) / 2 + q = (n + q) / 2 := by
    have h1 : (n - q + 2 * q) / 2 = (n - q) / 2 + q :=
      Nat.add_mul_div_left _ _ (by norm_num)
    have h2 : n - q + 2 * q = n + q := by omega
    rw [h2] at h1
    omega
  rw [havg]
  have hnq : n + q = M * n / 2 ^ 64 := by
    have h1 : (ml * n + 2 ^ 64 * n) / 2 ^ 64 = ml * n / 2 ^ 64 + n :=
      Nat.add_mul_div_left _ _ (by norm_num)
    have h2 : ml * n + 2 ^ 64 * n = M * n := by
      rw [← Nat.add_mul, hml_def, Nat.sub_add_cancel hM1]
    rw [h2] at h1
    omega
  rw [hnq]
  rw [Nat.shiftRight_eq_div_pow, Nat.div_div_eq_div_mul, Nat.div_div_eq_div_mul]
  have hpow : 2 ^ 64 * 2 * 2 ^ s = 2 ^ (65 + s) := by
    rw [Nat.pow_add]
    have : (2 : Nat) ^ 65 = 2 ^ 64 * 2 := by rw [← Nat.pow_succ]
    rw [this]
  have hpow2 : 2 ^ 64 * (2 * 2 ^ s) = 2 ^ (65 + s) := by
    rw [← Nat.mul_assoc]
    exact hpow
  rw [hpow2]

/-! ### Correctness of each strategy produced by `divide_by` -/

theorem fast_correct {d n : Nat} (h0 : 0 < d) (h64 : d < 2 ^ 64)
    (hnp : is_power_of_2 d = false) (hn : n < 2 ^ 64)
    (hcond : d - 2 ^ (Nat.log2 d + 64) % d < 2 ^ Nat.log2 d) :
    DividerU64.divide
      (DividerU64.Fast (2 ^ (Nat.log2 d + 64) / d + 1) (Nat.log2 d)) n = n / d := by
  have hmagic := fast_magic_lt h0 h64 hnp
  set l := Nat.log2 d with hl
  set u := 2 ^ (l + 64) with hu
  rw [divide_fast_eq l (by omega) hn]
  have hr_lt : u % d < d := Nat.mod_lt _ h0
  have hMd : (u / d + 1) * d = 2 ^ (l + 64) + (d - u % d) := by
    have h1 : d * (u / d) + u % d = u := Nat.div_add_mod u d
    have h2 : (u / d + 1) * d = u / d * d + d := by ring
    have h3 : u / d * d = d * (u / d) := Nat.mul_comm _ _
    omega
  have hne : n * (d - u % d) < 2 ^ (l + 64) := by
    calc n * (d - u % d) < 2 ^ 64 * 2 ^ l :=
          mul_lt_mul'' hn hcond (Nat.zero_le _) (Nat.zero_le _)
      _ = 2 ^ (l + 64) := by rw [← Nat.pow_add, Nat.add_comm]
  exact round_up_div h0 hMd hne

theorem general_correct {d n : Nat} (h0 : 0 < d) (h64 : d < 2 ^ 64)
    (hnp : is_power_of_2 d = false) (hn : n < 2 ^ 64) :
    DividerU64.divide
      (DividerU64.General ((1 + 2 ^ (Nat.log2 d + 65) / d) % 2 ^ 64)
        (Nat.log2 d)) n = n / d := by
  set l := Nat.log2 d with hl
  set X := 2 ^ (l + 65) with hX
  set M := 1 + X / d with hM
  have h2l : 2 ^ l < d := two_pow_log2_lt_of_not_pow2 h0 hnp
  have h2l1 : d < 2 ^ (l + 1) := Nat.lt_log2_self
  have hA : 2 ^ l ≤ 2 ^ 63 :=
    Nat.pow_le_pow_right (by norm_num) (log2_le_63 h0 h64)
  have hXval : X = 2 ^ l * 2 ^ 65 := by rw [hX, Nat.pow_add]
  have hpow64 : 2 ^ 64 * 2 ^ (l + 1) = 2 ^ (l + 65) := by
    rw [← Nat.pow_add]
    have : 64 + (l + 1) = l + 65 := by omega
    rw [this]
  have hMlo : 2 ^ 64 < M := by
    have hdiv : 2 ^ 64 ≤ X / d := by
      rw [Nat.le_div_iff_mul_le h0]
      calc 2 ^ 64 * d ≤ 2 ^ 64 * 2 ^ (l + 1) :=
            Nat.mul_le_mul_left _ (le_of_lt h2l1)
        _ = 2 ^ (l + 65) := hpow64
        _ = X := hX.symm
    omega
  have hMhi : M < 2 ^ 65 := by
    have hdiv : X / d < 2 ^ 65 - 1 := by
      rw [Nat.div_lt_iff_lt_mul h0, hXval]
      have h65 : (2 : Nat) ^ 65 = 36893488147419103232 := by norm_num
      have h63 : (2 : Nat) ^ 63 = 9223372036854775808 := by norm_num
      omega
    omega
  rw [divide_general_eq l (le_of_lt hMlo) hMhi hn]
  have hcomm : 65 + l = l + 65 := by omega
  rw [hcomm, ← hX]
  have hXmod : X % d < d := Nat.mod_lt _ h0
  have hmod_pos : 0 < X % d := by
    rcases Nat.eq_zero_or_pos (X % d) with h | h
    · exact absurd (Nat.dvd_of_mod_eq_zero h) (not_dvd_two_pow h0 hnp (l + 65))
    · exact h
  have hMd : M * d = X + (d - X % d) := by
    have h1 : d * (X / d) + X % d = X := Nat.div_add_mod X d
    have h2 : M * d = X / d * d + d := by rw [hM]; ring
    have h3 : X / d * d = d * (X / d) := Nat.mul_comm _ _
    omega
  have hne : n * (d - X % d) < X := by
    calc n * (d - X % d) < 2 ^ 64 * 2 ^ (l + 1) :=
          mul_lt_mul'' hn (by omega) (Nat.zero_le _) (Nat.zero_le _)
      _ = 2 ^ (l + 65) := hpow64
      _ = X := hX.symm
  have := round_up_div h0 hMd (hX ▸ hne)
  rw [← hX] at this
  exact this

/-! ### Assembled correctness of `divide_by` plus `divide` -/

theorem divide_by_ok {d : Nat} (h0 : 0 < d) :
    DividerU64.divide_by d =
      Except.ok (((DividerU64.power_of_2_division d).orElse
          (fun _ => DividerU64.fast_path d)).getD (DividerU64.general_path d)) := by
  unfold DividerU64.divide_by
  rw [if_pos h0]

theorem divide_by_divide_eq {d n : Nat} (h0 : 0 < d) (h64 : d < 2 ^ 64)
    (hn : n < 2 ^ 64) {D : DividerU64}
    (hD : DividerU64.divide_by d = Except.ok D) :
    DividerU64.divide D n = n / d := by
  cases hp : is_power_of_2 d with
  | true =>
      rw [divide_by_pow2 h0 h64 hp] at hD
      cases hD
      rw [divide_bitshift]
      conv_rhs => rw [eq_two_pow_of_is_power_of_2 h0 hp]
  | false =>
      by_cases hcond : d - 2 ^ (Nat.log2 d + 64) % d < 2 ^ Nat.log2 d
      · rw [divide_by_fast h0 h64 hp hcond] at hD
        cases hD
        exact fast_correct h0 h64 hp hn hcond
      · rw [divide_by_general h0 h64 hp (by omega)] at hD
        cases hD
        exact general_correct h0 h64 hp hn

/-! ### Further facts used by the individual claims -/

/-- The conceptual 65-bit magic of the general path lies strictly between
`2 ^ 64` and `2 ^ 65`. -/
theorem general_magic_bounds {d : Nat} (h0 : 0 < d) (h64 : d < 2 ^ 64)
    (hnp : is_power_of_2 d = false) :
    2 ^ 64 < 1 + 2 ^ (Nat.log2 d + 65) / d ∧
      1 + 2 ^ (Nat.log2 d + 65) / d < 2 ^ 65 := by
  set l := Nat.log2 d with hl
  have h2l : 2 ^ l < d := two_pow_log2_lt_of_not_pow2 h0 hnp
  have h2l1 : d < 2 ^ (l + 1) := Nat.lt_log2_self
  have hA : 2 ^ l ≤ 2 ^ 63 :=
    Nat.pow_le_pow_right (by norm_num) (log2_le_63 h0 h64)
  have hpow64 : 2 ^ 64 * 2 ^ (l + 1) = 2 ^ (l + 65) := by
    rw [← Nat.pow_add]
    have : 64 + (l + 1) = l + 65 := by omega
    rw [this]
  constructor
  · have hdiv : 2 ^ 64 ≤ 2 ^ (l + 65) / d := by
      rw [Nat.le_div_iff_mul_le h0]
      calc 2 ^ 64 * d ≤ 2 ^ 64 * 2 ^ (l + 1) :=
            Nat.mul_le_mul_left _ (le_of_lt h2l1)
        _ = 2 ^ (l + 65) := hpow64
    omega
  · have hdiv : 2 ^ (l + 65) / d < 2 ^ 65 - 1 := by
      rw [Nat.div_lt_iff_lt_mul h0]
      have hXval : (2 : Nat) ^ (l + 65) = 2 ^ l * 2 ^ 65 := Nat.pow_add 2 _ _
      have h65 : (2 : Nat) ^ 65 = 36893488147419103232 := by norm_num
      have h63 : (2 : Nat) ^ 63 = 9223372036854775808 := by norm_num
      omega
    omega

/-- The magic computed by the general path, `2 + ((e + (e - d)) / d)` with
`e = 2 ^ (63 + p)`, equals `1 + 2 ^ (log2 d + 65) / d`. -/
theorem general_magic_eq {d : Nat} (h0 : 0 < d) (h64 : d < 2 ^ 64) :
    2 + (2 ^ (Nat.log2 d + 64) + (2 ^ (Nat.log2 d + 64) - d)) / d =
      1 + 2 ^ (Nat.log2 d + 65) / d := by
  set l := Nat.log2 d with hl
  have hde : d ≤ 2 ^ (l + 64) := by
    calc d ≤ 2 ^ 64 := le_of_lt h64
      _ ≤ 2 ^ (l + 64) := Nat.pow_le_pow_right (by norm_num) (by omega)
  have hsum : 2 ^ (l + 64) + (2 ^ (l + 64) - d) = 2 ^ (l + 65) - d := by
    have : (2 : Nat) ^ (l + 65) = 2 ^ (l + 64) * 2 := by rw [← Nat.pow_succ]
    omega
  rw [hsum]
  have hd1 : d * 1 ≤ 2 ^ (l + 65) := by
    have : (2 : Nat) ^ (l + 64) ≤ 2 ^ (l + 65) :=
      Nat.pow_le_pow_right (by norm_num) (by omega)
    omega
  have hsub : (2 ^ (l + 65) - d) / d = 2 ^ (l + 65) / d - 1 := by
    calc (2 ^ (l + 65) - d) / d = (2 ^ (l + 65) - d * 1) / d := by rw [Nat.mul_one]
      _ = 2 ^ (l + 65) / d - 1 := Nat.sub_mul_div _ _ _ hd1
  rw [hsub]
  have hge1 : 1 ≤ 2 ^ (l + 65) / d := by
    rw [Nat.le_div_iff_mul_le h0]
    omega
  omega

/-- The high half of a product by a value of at most 64 bits never exceeds
the other factor. -/
theorem mullhi_le_right {x n : Nat} (hx : x ≤ 2 ^ 64) :
    libdivide_mullhi_u64 x n ≤ n := by
  unfold libdivide_mullhi_u64
  calc ((x * n) >>> 64) % 2 ^ 64 ≤ (x * n) >>> 64 := Nat.mod_le _ _
    _ = x * n / 2 ^ 64 := Nat.shiftRight_eq_div_pow _ _
    _ ≤ 2 ^ 64 * n / 2 ^ 64 :=
        Nat.div_le_div_right (Nat.mul_le_mul_right _ hx)
    _ = n := Nat.mul_div_cancel_left _ (by norm_num)

/-- The `assert!(reminder > 0 && reminder < divisor)` inside
`DividerU64::fast_path` holds on every input the function is reached with. -/
theorem fast_path_assert_holds {d : Nat} (h0 : 0 < d) (h64 : d < 2 ^ 64)
    (hnp : is_power_of_2 d = false) :
    DividerU64.fast_path_assert d = true := by
  unfold DividerU64.fast_path_assert
  simp only [Nat.shiftLeft_eq, one_mul, floor_log2_eq h0 h64, sub_div_mul_eq_mod]
  have hmod : 2 ^ (Nat.log2 d + 64) % d < d := Nat.mod_lt _ h0
  have hmod_pos : 0 < 2 ^ (Nat.log2 d + 64) % d := by
    rcases Nat.eq_zero_or_pos (2 ^ (Nat.log2 d + 64) % d) with h | h
    · exact absurd (Nat.dvd_of_mod_eq_zero h)
        (not_dvd_two_pow h0 hnp (Nat.log2 d + 64))
    · exact h
  rw [Nat.mod_eq_of_lt (lt_trans hmod h64)]
  simp [hmod, hmod_pos]

/-- The spec's `ceil_log2` (`Nat.clog 2`) of a non-power-of-two is its bit
length, one more than `floor_log2`. -/
theorem clog_eq_log2_succ {d : Nat} (h0 : 0 < d)
    (hnp : is_power_of_2 d = false) : Nat.clog 2 d = Nat.log2 d + 1 := by
  have h2l : 2 ^ Nat.log2 d < d := two_pow_log2_lt_of_not_pow2 h0 hnp
  have h2l1 : d < 2 ^ (Nat.log2 d + 1) := Nat.lt_log2_self
  have hle : Nat.clog 2 d ≤ Nat.log2 d + 1 :=
    (Nat.le_pow_iff_clog_le (by norm_num)).mp (le_of_lt h2l1)
  have hge : Nat.log2 d < Nat.clog 2 d :=
    (Nat.pow_lt_iff_lt_clog (by norm_num)).mp h2l
  omega

/-- Inversion: a `General` result of `divide_by` comes from the general path,
with the fields the general path computes. -/
theorem general_of_divide_by {d ml s : Nat} (h0 : 0 < d) (h64 : d < 2 ^ 64)
    (hD : DividerU64.divide_by d = Except.ok (DividerU64.General ml s)) :
    ml = (1 + 2 ^ (Nat.log2 d + 65) / d) % 2 ^ 64 ∧ s = Nat.log2 d ∧
      is_power_of_2 d = false ∧
      2 ^ Nat.log2 d ≤ d - 2 ^ (Nat.log2 d + 64) % d := by
  cases hp : is_power_of_2 d with
  | true =>
      rw [divide_by_pow2 h0 h64 hp] at hD
      simp at hD
  | false =>
      by_cases hcond : d - 2 ^ (Nat.log2 d + 64) % d < 2 ^ Nat.log2 d
      · rw [divide_by_fast h0 h64 hp hcond] at hD
        simp at hD
      · rw [divide_by_general h0 h64 hp (by omega)] at hD
        have h1 := hD
        rw [Except.ok.injEq] at h1
        rw [DividerU64.General.injEq] at h1
        exact ⟨h1.1.symm, h1.2.symm, rfl, by omega⟩

/-- Computes `Nat.log2` on concrete values through the kernel-reducible
`bitlen`. -/
theorem log2_eq_of_bitlen {d v : Nat} (h0 : 0 < d) (h64 : d < 2 ^ 64)
    (hb : bitlen 64 d = v + 1) : Nat.log2 d = v := by
  have := bitlen_eq_log2 64 d h0 h64
  omega

/-! ### The claims -/

/-- Claim C1: for every divisor `d` in `[1, 2^64-1]` and every dividend `n`
in `[0, 2^64-1]`, `divide (divide_by d) n` equals the truncating integer
division `n / d`. -/
theorem C1_divide_divide_by_eq_div (d n : Nat) (hd : 0 < d)
    (hd64 : d < 2 ^ 64) (hn : n < 2 ^ 64) :
    (DividerU64.divide_by d).toOption.map (fun D => DividerU64.divide D n) =
      some (n / d) := by
  rw [divide_by_ok hd]
  simp only [Except.toOption, Option.map_some']
  exact congrArg some (divide_by_divide_eq hd hd64 hn (divide_by_ok hd))

theorem C1_witness :
    (DividerU64.divide_by 234234131223).toOption.map
        (fun D => DividerU64.divide D 53362119232824) =
      some (53362119232824 / 234234131223) :=
  C1_divide_divide_by_eq_div 234234131223 53362119232824 (by decide) (by decide)
    (by decide)

/-- Claim C2: for every divisor `d > 0` with `d &&& (d - 1) = 0`, `divide_by`
returns `BitShift (floor_log2 d)`, and for every dividend `n`,
`n >>> floor_log2 d` is the truncating division `n / d`. -/
theorem C2_pow2_bitshift (d n : Nat) (hd : 0 < d) (hd64 : d < 2 ^ 64)
    (hn : n < 2 ^ 64) (hp : d &&& (d - 1) = 0) :
    DividerU64.divide_by d = Except.ok (DividerU64.BitShift (Nat.log2 d)) ∧
      n >>> Nat.log2 d = n / d := by
  have hp' : is_power_of_2 d = true := by simp [is_power_of_2, hp]
  refine ⟨divide_by_pow2 hd hd64 hp', ?_⟩
  rw [Nat.shiftRight_eq_div_pow]
  conv_rhs => rw [eq_two_pow_of_is_power_of_2 hd hp']

theorem C2_witness :
    DividerU64.divide_by 1024 = Except.ok (DividerU64.BitShift (Nat.log2 1024)) ∧
      999999999999 >>> Nat.log2 1024 = 999999999999 / 1024 :=
  C2_pow2_bitshift 1024 999999999999 (by decide) (by decide) (by decide)
    (by decide)

/-- Claim C3: for every non-power-of-two divisor `d > 0`, with
`m = 2 ^ (floor_log2 d + 64) / d`, `r = 2 ^ (floor_log2 d + 64) - m * d` and
`e = d - r`: if `e < 2 ^ floor_log2 d` then `divide_by d` is exactly
`Fast (m + 1) (floor_log2 d)`, and otherwise it is not a `Fast` divider. -/
theorem C3_fast_path_selection (d : Nat) (hd : 0 < d) (hd64 : d < 2 ^ 64)
    (hnp : ∀ k, d ≠ 2 ^ k) :
    (d - (2 ^ (Nat.log2 d + 64) - 2 ^ (Nat.log2 d + 64) / d * d) <
        2 ^ Nat.log2 d →
      DividerU64.divide_by d =
        Except.ok
          (DividerU64.Fast (2 ^ (Nat.log2 d + 64) / d + 1) (Nat.log2 d))) ∧
    (2 ^ Nat.log2 d ≤
        d - (2 ^ (Nat.log2 d + 64) - 2 ^ (Nat.log2 d + 64) / d * d) →
      ∀ magic s, DividerU64.divide_by d ≠ Except.ok (DividerU64.Fast magic s)) := by
  have hp' : is_power_of_2 d = false := is_power_of_2_false_of_ne hd hnp
  rw [sub_div_mul_eq_mod]
  constructor
  · intro hcond
    exact divide_by_fast hd hd64 hp' hcond
  · intro hcond magic s heq
    rw [divide_by_general hd hd64 hp' hcond] at heq
    simp at heq

theorem C3_witness :
    DividerU64.divide_by 11 =
      Except.ok (DividerU64.Fast (2 ^ (Nat.log2 11 + 64) / 11 + 1) (Nat.log2 11)) := by
  apply (C3_fast_path_selection 11 (by decide) (by decide)
    (ne_two_pow_of_is_power_of_2_false (by decide))).1
  have hl : Nat.log2 11 = 3 := log2_eq_of_bitlen (by decide) (by decide) (by decide)
  rw [hl]
  decide

/-- Claim C4: for every non-power-of-two divisor `d > 0` that fails the
fast-path condition, `divide_by d` returns `General` with
`shift = p - 1` and `magic_low` the low 64 bits of
`m = 2 + (2 ^ (63 + p) + (2 ^ (63 + p) - d)) / d`, where `p = ceil_log2 d`;
the intermediate arithmetic stays within 128-bit range: the subtraction does
not underflow and both the sum and `m` are below `2 ^ 128`, even when
`p = 64`. -/
theorem C4_general_path_selection (d : Nat) (hd : 0 < d) (hd64 : d < 2 ^ 64)
    (hnp : ∀ k, d ≠ 2 ^ k)
    (hcond : 2 ^ Nat.log2 d ≤
      d - (2 ^ (Nat.log2 d + 64) - 2 ^ (Nat.log2 d + 64) / d * d)) :
    DividerU64.divide_by d =
      Except.ok
        (DividerU64.General
          ((2 + (2 ^ (63 + Nat.clog 2 d) + (2 ^ (63 + Nat.clog 2 d) - d)) / d) %
            2 ^ 64)
          (Nat.clog 2 d - 1)) ∧
      d ≤ 2 ^ (63 + Nat.clog 2 d) ∧
      2 ^ (63 + Nat.clog 2 d) + (2 ^ (63 + Nat.clog 2 d) - d) < 2 ^ 128 ∧
      2 + (2 ^ (63 + Nat.clog 2 d) + (2 ^ (63 + Nat.clog 2 d) - d)) / d <
        2 ^ 128 := by
  have hp' : is_power_of_2 d = false := is_power_of_2_false_of_ne hd hnp
  rw [sub_div_mul_eq_mod] at hcond
  rw [clog_eq_log2_succ hd hp']
  have hexp : 63 + (Nat.log2 d + 1) = Nat.log2 d + 64 := by omega
  rw [hexp]
  have hshift : Nat.log2 d + 1 - 1 = Nat.log2 d := by omega
  rw [hshift]
  have hmagic := general_magic_eq hd hd64
  have hbounds := general_magic_bounds hd hd64 hp'
  have hde : d ≤ 2 ^ (Nat.log2 d + 64) := by
    calc d ≤ 2 ^ 64 := le_of_lt hd64
      _ ≤ 2 ^ (Nat.log2 d + 64) := Nat.pow_le_pow_right (by norm_num) (by omega)
  refine ⟨?_, hde, ?_, ?_⟩
  · rw [hmagic]
    exact divide_by_general hd hd64 hp' hcond
  · have hsum : 2 ^ (Nat.log2 d + 64) + (2 ^ (Nat.log2 d + 64) - d) =
        2 ^ (Nat.log2 d + 65) - d := by
      have : (2 : Nat) ^ (Nat.log2 d + 65) = 2 ^ (Nat.log2 d + 64) * 2 := by
        rw [← Nat.pow_succ]
      omega
    rw [hsum]
    have hle : (2 : Nat) ^ (Nat.log2 d + 65) ≤ 2 ^ 128 :=
      Nat.pow_le_pow_right (by norm_num) (by have := log2_le_63 hd hd64; omega)
    omega
  · rw [hmagic]
    have h65 : (2 : Nat) ^ 65 ≤ 2 ^ 128 := by norm_num
    omega

theorem C4_witness :
    DividerU64.divide_by 7 =
      Except.ok
        (DividerU64.General
          ((2 + (2 ^ (63 + Nat.clog 2 7) + (2 ^ (63 + Nat.clog 2 7) - 7)) / 7) %
            2 ^ 64)
          (Nat.clog 2 7 - 1)) ∧
      7 ≤ 2 ^ (63 + Nat.clog 2 7) ∧
      2 ^ (63 + Nat.clog 2 7) + (2 ^ (63 + Nat.clog 2 7) - 7) < 2 ^ 128 ∧
      2 + (2 ^ (63 + Nat.clog 2 7) + (2 ^ (63 + Nat.clog 2 7) - 7)) / 7 <
        2 ^ 128 := by
  apply C4_general_path_selection 7 (by decide) (by decide)
    (ne_two_pow_of_is_power_of_2_false (by decide))
  have hl : Nat.log2 7 = 2 := log2_eq_of_bitlen (by decide) (by decide) (by decide)
  rw [hl]
  decide

/-- Claim C5: on a `General` divider with 64-bit fields, `divide` computes
`q` = high 64 bits of `magic_low * n`, then `t = ((n - q) >> 1) + q` with the
subtraction and addition taken modulo `2 ^ 64`, and returns `t >> shift`. -/
theorem C5_general_divide_formula (magic_low s n : Nat)
    (hml : magic_low < 2 ^ 64) (hn : n < 2 ^ 64) :
    DividerU64.divide (DividerU64.General magic_low s) n =
      ((((2 ^ 64 + n - magic_low * n / 2 ^ 64) % 2 ^ 64) / 2 +
          magic_low * n / 2 ^ 64) % 2 ^ 64) / 2 ^ s := by
  have hq : ((magic_low * n) >>> 64) % 2 ^ 64 = magic_low * n / 2 ^ 64 := by
    rw [Nat.shiftRight_eq_div_pow]
    apply Nat.mod_eq_of_lt
    rw [Nat.div_lt_iff_lt_mul (by norm_num)]
    calc magic_low * n ≤ magic_low * 2 ^ 64 :=
          Nat.mul_le_mul_left _ (le_of_lt hn)
      _ < 2 ^ 64 * 2 ^ 64 := (Nat.mul_lt_mul_right (by norm_num)).mpr hml
  show (((((2 ^ 64 + n - (((magic_low * n) >>> 64) % 2 ^ 64)) % 2 ^ 64) >>> 1) +
      (((magic_low * n) >>> 64) % 2 ^ 64)) % 2 ^ 64) >>> s = _
  rw [hq, Nat.shiftRight_eq_div_pow _ 1, Nat.pow_one, Nat.shiftRight_eq_div_pow]

theorem C5_witness :
    DividerU64.divide (DividerU64.General 2635249153387078803 2) 100 =
      ((((2 ^ 64 + 100 - 2635249153387078803 * 100 / 2 ^ 64) % 2 ^ 64) / 2 +
          2635249153387078803 * 100 / 2 ^ 64) % 2 ^ 64) / 2 ^ 2 :=
  C5_general_divide_formula 2635249153387078803 2 100 (by decide) (by decide)

/-- Claim C6: constructing from divisor 0 fails with the single error kind
`InvalidDivisor`; for every positive divisor construction succeeds, and the
internal `assert!` of the fast path (the only other failure point inside
construction) always holds on reachable inputs, so construction is the only
fallible operation. -/
theorem C6_construction_errors :
    DividerU64.divide_by 0 = Except.error DivideError.InvalidDivisor ∧
      (∀ d : Nat, 0 < d → ∃ D, DividerU64.divide_by d = Except.ok D) ∧
      (∀ d : Nat, 0 < d → d < 2 ^ 64 → is_power_of_2 d = false →
        DividerU64.fast_path_assert d = true) := by
  refine ⟨rfl, ?_, ?_⟩
  · intro d hd
    exact ⟨_, divide_by_ok hd⟩
  · intro d hd h64 hnp
    exact fast_path_assert_holds hd h64 hnp

theorem C6_witness : ∃ D, DividerU64.divide_by 9 = Except.ok D :=
  C6_construction_errors.2.1 9 (by decide)

/-- Claim C7: for every divider constructed from a positive divisor, `divide`
is total over all 64-bit dividends: the checked evaluation (which reports the
panic sites of a debug build: underflowing subtraction, oversized shift)
always succeeds and agrees with `divide`. -/
theorem C7_divide_total_no_panic (d n : Nat) (D : DividerU64) (hd : 0 < d)
    (hd64 : d < 2 ^ 64) (hn : n < 2 ^ 64)
    (hD : DividerU64.divide_by d = Except.ok D) :
    DividerU64.divide_checked D n = some (DividerU64.divide D n) := by
  have hl : Nat.log2 d < 64 := by have := log2_le_63 hd hd64; omega
  cases hp : is_power_of_2 d with
  | true =>
      rw [divide_by_pow2 hd hd64 hp] at hD
      cases hD
      show (if Nat.log2 d < 64 then some (n >>> Nat.log2 d) else none) =
        some (DividerU64.divide (DividerU64.BitShift (Nat.log2 d)) n)
      rw [if_pos hl]
      rfl
  | false =>
      by_cases hcond : d - 2 ^ (Nat.log2 d + 64) % d < 2 ^ Nat.log2 d
      · rw [divide_by_fast hd hd64 hp hcond] at hD
        cases hD
        show (if Nat.log2 d < 64 then
            some (libdivide_mullhi_u64 (2 ^ (Nat.log2 d + 64) / d + 1) n >>>
              Nat.log2 d)
          else none) =
          some (DividerU64.divide
            (DividerU64.Fast (2 ^ (Nat.log2 d + 64) / d + 1) (Nat.log2 d)) n)
        rw [if_pos hl]
        rfl
      · rw [divide_by_general hd hd64 hp (by omega)] at hD
        cases hD
        have hml : (1 + 2 ^ (Nat.log2 d + 65) / d) % 2 ^ 64 ≤ 2 ^ 64 :=
          le_of_lt (Nat.mod_lt _ (by norm_num))
        have hq := mullhi_le_right (n := n) hml
        set q := libdivide_mullhi_u64 ((1 + 2 ^ (Nat.log2 d + 65) / d) % 2 ^ 64) n
          with hqdef
        have hsub : (2 ^ 64 + n - q) % 2 ^ 64 = n - q := by
          have h1 : 2 ^ 64 + n - q = 2 ^ 64 + (n - q) := by omega
          rw [h1, Nat.add_mod_left]
          exact Nat.mod_eq_of_lt (by omega)
        show (if q ≤ n then
            (if Nat.log2 d < 64 then
              some (((((n - q) >>> 1) + q) % 2 ^ 64) >>> Nat.log2 d)
            else none)
          else none) =
          some ((((((2 ^ 64 + n - q) % 2 ^ 64) >>> 1) + q) % 2 ^ 64) >>>
            Nat.log2 d)
        rw [if_pos hq, if_pos hl, hsub]

theorem C7_witness :
    DividerU64.divide_checked (DividerU64.General 2635249153387078803 2)
        18446744073709551615 =
      some (DividerU64.divide (DividerU64.General 2635249153387078803 2)
        18446744073709551615) :=
  C7_divide_total_no_panic 7 18446744073709551615
    (DividerU64.General 2635249153387078803 2) (by decide) (by decide)
    (by decide) (by rfl)

/-- Claim C8: `divide_by 4` is exactly `BitShift 2`; `divide_by 11` is exactly
`Fast 13415813871788764812 3`; `divide_by 7` is a `General` divider. -/
theorem C8_strategy_examples :
    (DividerU64.divide_by 4).toOption = some (DividerU64.BitShift 2) ∧
      (DividerU64.divide_by 11).toOption =
        some (DividerU64.Fast 13415813871788764812 3) ∧
      ∃ magic_low s,
        (DividerU64.divide_by 7).toOption =
          some (DividerU64.General magic_low s) :=
  ⟨by decide, by decide, 2635249153387078803, 2, by decide⟩

/-- Claim C9: the `shift` field of any divider built from a positive divisor
lies in `[0, 63]`, in each of the three variants. -/
theorem C9_shift_in_range (d : Nat) (D : DividerU64) (hd : 0 < d)
    (hd64 : d < 2 ^ 64) (hD : DividerU64.divide_by d = Except.ok D) :
    DividerU64.shift_of D ≤ 63 := by
  have hl := log2_le_63 hd hd64
  cases hp : is_power_of_2 d with
  | true =>
      rw [divide_by_pow2 hd hd64 hp] at hD
      cases hD
      exact hl
  | false =>
      by_cases hcond : d - 2 ^ (Nat.log2 d + 64) % d < 2 ^ Nat.log2 d
      · rw [divide_by_fast hd hd64 hp hcond] at hD
        cases hD
        exact hl
      · rw [divide_by_general hd hd64 hp (by omega)] at hD
        cases hD
        exact hl

theorem C9_witness : DividerU64.shift_of (DividerU64.BitShift 5) ≤ 63 :=
  C9_shift_in_range 32 (DividerU64.BitShift 5) (by decide) (by decide)
    (by rfl)

/-- Claim C10: in the general apply path of a divider built by `divide_by`,
the high product `q` never exceeds the dividend `n`, and
`((n - q) >> 1) + q` stays at most `2 ^ 64 - 1`: neither the subtraction nor
the addition actually wraps. -/
theorem C10_general_no_wrap (d n ml s : Nat) (hd : 0 < d) (hd64 : d < 2 ^ 64)
    (hn : n < 2 ^ 64)
    (hD : DividerU64.divide_by d = Except.ok (DividerU64.General ml s)) :
    libdivide_mullhi_u64 ml n ≤ n ∧
      ((n - libdivide_mullhi_u64 ml n) >>> 1) + libdivide_mullhi_u64 ml n ≤
        2 ^ 64 - 1 := by
  obtain ⟨hml, -, -, -⟩ := general_of_divide_by hd hd64 hD
  have hml64 : ml ≤ 2 ^ 64 := by
    rw [hml]
    exact le_of_lt (Nat.mod_lt _ (by norm_num))
  have hq := mullhi_le_right (n := n) hml64
  refine ⟨hq, ?_⟩
  have h1 : (n - libdivide_mullhi_u64 ml n) >>> 1 ≤
      n - libdivide_mullhi_u64 ml n := by
    rw [Nat.shiftRight_eq_div_pow, Nat.pow_one]
    exact Nat.div_le_self _ _
  omega

theorem C10_witness :
    libdivide_mullhi_u64 2635249153387078803 1000000 ≤ 1000000 ∧
      ((1000000 - libdivide_mullhi_u64 2635249153387078803 1000000) >>> 1) +
          libdivide_mullhi_u64 2635249153387078803 1000000 ≤
        2 ^ 64 - 1 :=
  C10_general_no_wrap 7 1000000 2635249153387078803 2 (by decide) (by decide)
    (by decide) (by rfl)
